import Mathlib

/-!
Verification development for the RAKSHAK AI scam-detection service
(`src/main.py`).  The Python source is shallowly embedded below:

* the regular-expression scans (`re.findall` / `re.search` over
  `UPI_REGEX = [\w.-]+@[\w.-]+`, `BANK_REGEX = \b\d{9,18}\b`,
  `URL_REGEX = https?://[^\s]+`) are implemented as executable character
  scanners with the leftmost, greedy, non-overlapping semantics of
  `re.findall` (ASCII character classes: the inputs of interest are ASCII);
* `Classifier.predict` is embedded as `predict`, with the optional pickled
  ML model abstracted as an optional probability (`Option ℚ`, the pickled
  model is an external black box) and the optional scam-sentence dataset as
  a `List String` parameter;
* Python floats are modelled as exact rationals (`ℚ`); the arithmetic of
  the classifier (`score / 12`, `/ 2`, `min`, `max`, fixed literals) is
  exactly representable at every comparison the claims touch;
* `Storage` is embedded as `StoreState`, a structure of finite-support maps
  represented as functions, with wall-clock time passed explicitly (`ℤ`
  seconds) and the `/honeypot` handler as a state-passing function
  `honeypot`; the `random.choice` reply and `random.randint` latency of the
  response are presentation-only fields not modelled (no claim mentions
  them); the API-key comparison is abstracted as a boolean.
-/

namespace Rakshak

/-! ### Character classes (ASCII models of Python `\w`, `[\w.-]`, `\s`) -/

/-- ASCII model of the regex class `\w`: letters, digits and underscore. -/
def isWordChar (c : Char) : Bool :=
  c.isAlphanum || c == '_'

/-- The character class `[\w.-]` of `UPI_REGEX`. -/
def isUpiChar (c : Char) : Bool :=
  isWordChar c || c == '.' || c == '-'

/-- ASCII model of Python whitespace (`\s`, `str.split()`, `str.strip()`). -/
def isSpaceChar (c : Char) : Bool :=
  c == ' ' || c == '\t' || c == '\n' || c == '\r' || c == '\x0b' || c == '\x0c'

/-- Python's `needle in hay` substring test. -/
def containsSub (needle : List Char) : List Char → Bool
  | [] => needle.isEmpty
  | c :: rest => needle.isPrefixOf (c :: rest) || containsSub needle rest

/-- Python's `str.lower()` restricted to ASCII. -/
def lowerChars (l : List Char) : List Char :=
  l.map Char.toLower

/-- Python's `str.strip()`: drop leading and trailing whitespace. -/
def trimChars (l : List Char) : List Char :=
  ((l.dropWhile isSpaceChar).reverse.dropWhile isSpaceChar).reverse

/-- Python's `str.split()` (no separator): whitespace-separated words,
empty pieces dropped.  `acc` holds the current word, reversed. -/
def splitWsAux (acc : List Char) : List Char → List (List Char)
  | [] => if acc.isEmpty then [] else [acc.reverse]
  | c :: rest =>
    if isSpaceChar c then
      (if acc.isEmpty then [] else [acc.reverse]) ++ splitWsAux [] rest
    else
      splitWsAux (c :: acc) rest

def splitWs (l : List Char) : List (List Char) :=
  splitWsAux [] l

/-! ### The three `re.findall` scanners

Each scanner consumes a fuel argument (instantiated with the list length,
which bounds the number of scanning steps, each of which consumes at least
one character) so that the definitions are structurally recursive and
kernel-computable. -/

/-- `re.findall(r"[\w.-]+@[\w.-]+", ·)`: at each position, a maximal
nonempty `[\w.-]` run, an `@`, and a maximal nonempty `[\w.-]` run;
on failure the scan advances one character, on success it resumes after
the match (Python's non-overlapping findall). -/
def upiScanAux : Nat → List Char → List (List Char)
  | 0, _ => []
  | _ + 1, [] => []
  | fuel + 1, c :: rest =>
    if isUpiChar c then
      match (c :: rest).dropWhile isUpiChar with
      | '@' :: d :: tail3 =>
        if isUpiChar d then
          ((c :: rest).takeWhile isUpiChar ++ '@' :: (d :: tail3).takeWhile isUpiChar)
            :: upiScanAux fuel ((d :: tail3).dropWhile isUpiChar)
        else
          upiScanAux fuel rest
      | _ => upiScanAux fuel rest
    else
      upiScanAux fuel rest

def upiScan (l : List Char) : List (List Char) :=
  upiScanAux l.length l

/-- First character is a word character. -/
def headWord : List Char → Bool
  | [] => false
  | c :: _ => isWordChar c

/-- `re.findall(r"\b\d{9,18}\b", ·)`: a maximal digit run of length 9–18
delimited by word boundaries.  `prevW` records whether the character just
before the current position is a word character (false at the start of the
text). -/
def bankScanAux : Nat → Bool → List Char → List (List Char)
  | 0, _, _ => []
  | _ + 1, _, [] => []
  | fuel + 1, prevW, c :: rest =>
    if c.isDigit && !prevW then
      if 9 ≤ ((c :: rest).takeWhile Char.isDigit).length ∧
          ((c :: rest).takeWhile Char.isDigit).length ≤ 18 ∧
          headWord ((c :: rest).dropWhile Char.isDigit) = false then
        (c :: rest).takeWhile Char.isDigit
          :: bankScanAux fuel true ((c :: rest).dropWhile Char.isDigit)
      else
        bankScanAux fuel (isWordChar c) rest
    else
      bankScanAux fuel (isWordChar c) rest

def bankScan (l : List Char) : List (List Char) :=
  bankScanAux l.length false l

def httpChars : List Char := ['h', 't', 't', 'p']

def schemeRest : List Char := [':', '/', '/']

def schemeRestS : List Char := ['s', ':', '/', '/']

/-- One attempted match of `https?://[^\s]+` at the head of `l`: on success
returns the match and the remainder of the text. -/
def tryUrl (l : List Char) : Option (List Char × List Char) :=
  if httpChars.isPrefixOf l then
    if schemeRestS.isPrefixOf (l.drop 4) then
      if ((l.drop 4).drop 4).takeWhile (fun c => !isSpaceChar c) = [] then
        none
      else
        some (httpChars ++ 's' :: schemeRest ++ ((l.drop 4).drop 4).takeWhile (fun c => !isSpaceChar c),
          ((l.drop 4).drop 4).dropWhile (fun c => !isSpaceChar c))
    else if schemeRest.isPrefixOf (l.drop 4) then
      if ((l.drop 4).drop 3).takeWhile (fun c => !isSpaceChar c) = [] then
        none
      else
        some (httpChars ++ schemeRest ++ ((l.drop 4).drop 3).takeWhile (fun c => !isSpaceChar c),
          ((l.drop 4).drop 3).dropWhile (fun c => !isSpaceChar c))
    else
      none
  else
    none

/-- `re.findall(r"https?://[^\s]+", ·)`. -/
def urlScanAux : Nat → List Char → List (List Char)
  | 0, _ => []
  | _ + 1, [] => []
  | fuel + 1, c :: rest =>
    match tryUrl (c :: rest) with
    | some (m, rem) => m :: urlScanAux fuel rem
    | none => urlScanAux fuel rest

def urlScan (l : List Char) : List (List Char) :=
  urlScanAux l.length l

/-! ### `extract` (src/main.py lines 217–222) -/

/-- `extract(text)`: the three `list(set(re.findall(...)))` results, the
Python sets modelled as duplicate-free lists. -/
def extract (text : String) : List String × List String × List String :=
  (((upiScan text.data).map fun l => String.mk l).dedup,
   ((bankScan text.data).map fun l => String.mk l).dedup,
   ((urlScan text.data).map fun l => String.mk l).dedup)

/-- Follows the spec's words (§4.1) for the fourth output set claimed of
the entity extractor, which has no counterpart anywhere in the source:
"phone-number-like tokens of 10–13 digits (optionally `+`-prefixed)".
True at the head of a text position when a boundary-delimited digit run
of length 10–13 starts there. -/
def phoneRunOk (l : List Char) : Bool :=
  decide (10 ≤ (l.takeWhile Char.isDigit).length) &&
    decide ((l.takeWhile Char.isDigit).length ≤ 13) &&
    !headWord (l.dropWhile Char.isDigit)

/-- Follows the spec's words (§4.1): the scan for phone-number-like
tokens of 10–13 digits, optionally `+`-prefixed (no such extraction
exists in the source). -/
def phoneScanAux : Nat → Bool → List Char → List (List Char)
  | 0, _, _ => []
  | _ + 1, _, [] => []
  | fuel + 1, prevW, c :: rest =>
    if c == '+' && !prevW && phoneRunOk rest then
      ('+' :: rest.takeWhile Char.isDigit)
        :: phoneScanAux fuel true (rest.dropWhile Char.isDigit)
    else if c.isDigit && !prevW && phoneRunOk (c :: rest) then
      ((c :: rest).takeWhile Char.isDigit)
        :: phoneScanAux fuel true ((c :: rest).dropWhile Char.isDigit)
    else
      phoneScanAux fuel (isWordChar c) rest

/-- The deduplicated phone-number set the spec claims the extractor
returns (spec-following definition; absent from the source). -/
def phoneTokensSpec (l : List Char) : List String :=
  ((phoneScanAux l.length false l).map fun m => String.mk m).dedup

/-! ### The classifier (src/main.py lines 144–208) -/

/-- `BASE_SCAM_KEYWORDS` of src/main.py, verbatim. -/
def BASE_SCAM_KEYWORDS : List String := [
  "account blocked", "account suspended", "account frozen",
  "bank verification", "security alert", "unauthorized transaction",
  "verify bank", "update kyc", "aadhaar update", "pan update",
  "upi blocked", "upi verification", "send money", "payment pending",
  "refund processing", "upi limit exceeded",
  "credit card", "debit card", "card number", "cvv", "expiry date",
  "card blocked", "international transaction",
  "otp", "one time password", "verification code", "share otp",
  "instant loan", "pre approved loan", "loan approved",
  "processing fee", "loan offer",
  "work from home", "earn money", "easy money",
  "telegram job", "whatsapp job",
  "lottery", "you won", "cash prize", "lucky draw",
  "police case", "legal notice", "court notice",
  "parcel seized", "customs clearance",
  "click here", "verify now", "secure link", "short url",
  "urgent", "final warning", "immediate action",
  "mee account block", "verify cheyandi", "money pampandi",
  "link open chey", "account block avutundi",
  "aapka account band", "paise bhejo", "otp bhejo"]

/-- `msg = text.lower().strip()` of `Classifier.predict`. -/
def normMsg (text : String) : List Char :=
  trimChars (lowerChars text.data)

/-- `re.search(UPI_REGEX, msg)` is truthy (a match exists). -/
def hasUpi (msg : List Char) : Bool :=
  !(upiScan msg).isEmpty

/-- `"otp" in msg`. -/
def otpHit (msg : List Char) : Bool :=
  containsSub "otp".data msg

/-- `"send" in msg and ("money" in msg or "amount" in msg)`. -/
def sendMoneyHit (msg : List Char) : Bool :=
  containsSub "send".data msg &&
    (containsSub "money".data msg || containsSub "amount".data msg)

/-- The `hard_trigger` flag of `Classifier.predict`: set by any of the
three hard scam rules. -/
def hardTrigger (msg : List Char) : Bool :=
  hasUpi msg || otpHit msg || sendMoneyHit msg

/-- The externally supplied scam probability (`ML_MODEL.predict_proba`),
`0` when the model is absent or raises. -/
def mlConf (ml : Option ℚ) : ℚ :=
  ml.getD 0

/-- The keyword-membership score: one point per matched entry of
`BASE_SCAM_KEYWORDS`. -/
def kwScore (msg : List Char) : ℕ :=
  (BASE_SCAM_KEYWORDS.filter fun k => containsSub k.data msg).length

/-- The dataset-similarity bonus: 3 points when the message is longer
than 15 characters and contains some dataset sentence. -/
def dsScore (ds : List String) (msg : List Char) : ℕ :=
  if 15 < msg.length ∧ ds.any fun s => containsSub s.data msg then 3 else 0

/-- `score += int(ml_conf * 4)`. -/
def mlAdd (ml : Option ℚ) : ℕ :=
  (mlConf ml * 4).floor.toNat

/-- The accumulated integer score of `Classifier.predict`. -/
def rawScore (ds : List String) (ml : Option ℚ) (msg : List Char) : ℕ :=
  kwScore msg + dsScore ds msg +
    (if hasUpi msg then 7 else 0) +
    (if otpHit msg then 6 else 0) +
    (if sendMoneyHit msg then 5 else 0) +
    mlAdd ml

/-- `confidence = min((score / 12 + ml_conf) / 2, 1.0)`. -/
def blend (score : ℕ) (q : ℚ) : ℚ :=
  min (((score : ℚ) / 12 + q) / 2) 1

/-- `Classifier.predict` (src/main.py lines 145–208).  `ds` is the
`DATASET` of loaded scam sentences (lowercased lines), `ml` the optional
ML probability.  Returns `(scam?, confidence)`. -/
def predict (ds : List String) (ml : Option ℚ) (text : String) : Bool × ℚ :=
  let msg := normMsg text
  if (splitWs msg).length ≤ 2 then
    (false, 1 / 20)
  else if hardTrigger msg then
    (true, max (blend (rawScore ds ml msg) (mlConf ml)) (7 / 10))
  else
    (decide (8 ≤ rawScore ds ml msg), blend (rawScore ds ml msg) (mlConf ml))

/-! ### Storage (src/main.py lines 108–134) -/

/-- `MEMORY_TTL = 1800` (seconds). -/
def MEMORY_TTL : ℤ := 1800

/-- `RATE_LIMIT_WINDOW = 60` (seconds). -/
def RATE_LIMIT_WINDOW : ℤ := 60

/-- `RATE_LIMIT_MAX = 60` (requests per window). -/
def RATE_LIMIT_MAX : ℕ := 60

/-- One client's rate bucket: `{"ts": …, "count": …}`. -/
abbrev Bucket := ℤ × ℕ

/-- `Storage.rate_limited(ip)` acting on that ip's bucket: returns the
limited-verdict and the updated bucket (src/main.py lines 114–121). -/
def rate_limited (b : Option Bucket) (now : ℤ) : Bool × Bucket :=
  match b with
  | none => (false, (now, 1))
  | some (ts, c) =>
    if RATE_LIMIT_WINDOW < now - ts then
      (false, (now, 1))
    else
      (decide (RATE_LIMIT_MAX < c + 1), (ts, c + 1))

/-- A sequence of `rate_limited` calls for one client at the given times,
starting from bucket state `b`: the per-call verdicts and the final
bucket. -/
def runLimiter (b : Option Bucket) : List ℤ → List Bool × Option Bucket
  | [] => ([], b)
  | t :: ts =>
    let step := rate_limited b t
    let rest := runLimiter (some step.2) ts
    (step.1 :: rest.1, rest.2)

/-- The history list which `Storage.history(cid)` hands to the caller:
fresh and empty when the record is absent or idle for more than
`MEMORY_TTL`, the live record's list otherwise (src/main.py lines
123–128). -/
def effHistory (rec : Option (ℤ × List String)) (now : ℤ) : List String :=
  match rec with
  | none => []
  | some (ts, h) => if MEMORY_TTL < now - ts then [] else h

/-- Pointwise update of a string-keyed map. -/
def supd {β : Type} (f : String → β) (k : String) (v : β) : String → β :=
  fun x => if x = k then v else f x

/-- `Storage.update_graph(upis)` (src/main.py lines 130–132). -/
def update_graph (g : String → ℕ) (upis : List String) : String → ℕ :=
  upis.foldl (fun g u => supd g u (g u + 1)) g

/-- The whole `Storage` object: session memory, rate buckets, UPI graph. -/
structure StoreState where
  memory : String → Option (ℤ × List String)
  rate : String → Option Bucket
  graph : String → ℕ

/-! ### Helpers (src/main.py lines 217–234) -/

/-- `len(h.split())`: the word count used by `detect_ai`. -/
def wordCount (s : String) : ℕ :=
  (splitWs s.data).length

/-- `detect_ai(history)` (src/main.py lines 224–227): at least three
messages whose last three have a single distinct word count. -/
def detect_ai (history : List String) : Bool :=
  if history.length < 3 then
    false
  else
    decide ((((history.drop (history.length - 3)).map wordCount).dedup).length = 1)

/-- Python's `" ".join(history)`. -/
def joinSpace : List String → String
  | [] => ""
  | [s] => s
  | s :: rest => s ++ " " ++ joinSpace rest

/-! ### The `/honeypot` handler (src/main.py lines 240–278) -/

/-- Extracted intelligence of a response. -/
structure Intelligence where
  upi_ids : List String
  bank_accounts : List String
  phishing_urls : List String
  network_score : ℕ
  forensic_valid : Bool
  deriving DecidableEq

/-- The decision-relevant fields of `HoneypotResponse` (the random canned
reply and synthetic latency are presentation-only and not modelled). -/
structure Resp where
  scam_detected : Bool
  confidence : ℚ
  conversation_turns : ℕ
  ai_suspected : Bool
  intel : Intelligence
  deriving DecidableEq

/-- The two error responses of the handler. -/
inductive HError where
  | unauthorized
  | rateLimited
  deriving DecidableEq

/-- Whether the handler produced a successful response. -/
def isOkB : Except HError Resp → Bool
  | Except.ok _ => true
  | Except.error _ => false

/-- The response carried by a successful result (a default otherwise). -/
def okResp : Except HError Resp → Resp
  | Except.ok r => r
  | Except.error _ => ⟨false, 0, 0, false, ⟨[], [], [], 0, false⟩⟩

/-- The `/honeypot` endpoint (src/main.py lines 240–278) as a state
transformer: authentication check, rate limiting, session history append,
classification, AI heuristic, extraction over the joined history, and
graph update, in the source's order.  `apiKeyOk` abstracts
`x_api_key == API_KEY`, `now` the wall clock. -/
def honeypot (ds : List String) (ml : Option ℚ) (now : ℤ) (st : StoreState)
    (apiKeyOk : Bool) (ip : String) (cidOpt : Option String) (msg : String) :
    Except HError Resp × StoreState :=
  if apiKeyOk then
    let rs := rate_limited (st.rate ip) now
    let st1 : StoreState := { st with rate := supd st.rate ip (some rs.2) }
    if rs.1 then
      (Except.error HError.rateLimited, st1)
    else
      let cid := cidOpt.getD ip
      let h1 := effHistory (st1.memory cid) now ++ [msg]
      let st2 : StoreState := { st1 with memory := supd st1.memory cid (some (now, h1)) }
      let p := predict ds ml msg
      let e := extract (joinSpace h1)
      let st3 : StoreState := { st2 with graph := update_graph st2.graph e.1 }
      (Except.ok
        { scam_detected := p.1
          confidence := p.2
          conversation_turns := h1.length
          ai_suspected := detect_ai h1
          intel := ⟨e.1, e.2.1, e.2.2, e.1.length, false⟩ },
       st3)
  else
    (Except.error HError.unauthorized, st)

/-! ### Escalation (spec §4.3–§4.4; no such code exists in the repository,
so it is modelled from the specification) -/

/-- Modelled from the spec: the `escalationSent` flag of a
`ConversationSession` ("boolean, set true exactly once, guarding
idempotent reporting"); the session store and notifier code this flag
belongs to is absent from the source tree. -/
structure EscSession where
  escalationSent : Bool
  deriving DecidableEq

/-- Modelled from the spec: "`markEscalated(id) → bool` (true = this call
is the one that flips the flag; false = already sent)". -/
def markEscalated (s : EscSession) : Bool × EscSession :=
  if s.escalationSent then (false, s) else (true, ⟨true⟩)

/-- Modelled from the spec: one notifier attempt (§4.4) — the report is
produced only for a session "whose latest classification is scam, and
whose conversation length has reached a configured minimum turn count,
and whose `markEscalated` call returns true".  Returns whether an
outbound report is produced. -/
def attemptEscalation (minTurns : ℕ) (scam : Bool) (turns : ℕ)
    (s : EscSession) : Bool × EscSession :=
  if scam ∧ minTurns ≤ turns then markEscalated s else (false, s)

/-- A session lifetime of notifier attempts, each given by that turn's
scam verdict and conversation length: per-attempt report-produced flags
and the final session. -/
def runAttempts (minTurns : ℕ) (s : EscSession) :
    List (Bool × ℕ) → List Bool × EscSession
  | [] => ([], s)
  | c :: cs =>
    let step := attemptEscalation minTurns c.1 c.2 s
    let rest := runAttempts minTurns step.2 cs
    (step.1 :: rest.1, rest.2)

/-! ### Lemmas: escalation idempotence -/

/-- Once the flag is set, no further attempt produces a report and the
flag stays set. -/
lemma runAttempts_sent (minTurns : ℕ) (calls : List (Bool × ℕ)) :
    runAttempts minTurns ⟨true⟩ calls = (List.replicate calls.length false, ⟨true⟩) := by
  induction calls with
  | nil => rfl
  | cons c cs ih =>
    have hstep : attemptEscalation minTurns c.1 c.2 ⟨true⟩ = (false, ⟨true⟩) := by
      unfold attemptEscalation markEscalated
      split <;> simp
    simp [runAttempts, hstep, ih, List.replicate_succ]

/-- C3.  Spec-modelled escalation: over any session lifetime of notifier
attempts starting with `escalationSent = false`, a report is produced
exactly once when some attempt reaches the scam verdict with the minimum
turn count (and never otherwise), and the flag transitions false→true at
most once (it ends true exactly when some qualifying attempt occurred). -/
theorem escalation_exactly_once (minTurns : ℕ) (calls : List (Bool × ℕ)) :
    (runAttempts minTurns ⟨false⟩ calls).1.count true =
      (if calls.any (fun c => c.1 && decide (minTurns ≤ c.2)) then 1 else 0) ∧
    (runAttempts minTurns ⟨false⟩ calls).2.escalationSent =
      calls.any (fun c => c.1 && decide (minTurns ≤ c.2)) := by
  induction calls with
  | nil => simp [runAttempts]
  | cons c cs ih =>
    by_cases hc : c.1 = true ∧ minTurns ≤ c.2
    · have hstep : attemptEscalation minTurns c.1 c.2 ⟨false⟩ = (true, ⟨true⟩) := by
        unfold attemptEscalation markEscalated
        rw [if_pos hc]
        simp
      have hany : (c :: cs).any (fun c => c.1 && decide (minTurns ≤ c.2)) = true := by
        simp [hc.1, hc.2]
      simp [runAttempts, hstep, runAttempts_sent, hany, List.count_replicate]
    · have hstep : attemptEscalation minTurns c.1 c.2 ⟨false⟩ = (false, ⟨false⟩) := by
        unfold attemptEscalation
        rw [if_neg hc]
      have hc' : (c.1 && decide (minTurns ≤ c.2)) = false := by
        by_cases h : c.1 = true
        · have hnle : ¬ minTurns ≤ c.2 := fun hle => hc ⟨h, hle⟩
          simp [h, hnle]
        · simp [Bool.eq_false_iff.mpr h]
      simp only [runAttempts, hstep, List.any_cons, hc', Bool.false_or,
        List.count_cons]
      refine ⟨?_, ih.2⟩
      simp [ih.1]

/-! ### Lemmas: rate limiter -/

/-- Within the current window the bucket keeps its anchor and counts up,
limiting exactly the calls whose incremented count exceeds the ceiling. -/
lemma runLimiter_in_window (t0 : ℤ) :
    ∀ (ts : List ℤ) (c : ℕ), (∀ t ∈ ts, t - t0 ≤ RATE_LIMIT_WINDOW) →
      runLimiter (some (t0, c)) ts =
        ((List.range ts.length).map (fun i => decide (RATE_LIMIT_MAX < c + i + 1)),
         some (t0, c + ts.length)) := by
  intro ts
  induction ts with
  | nil => intro c _; simp [runLimiter]
  | cons t ts ih =>
    intro c hin
    have ht : ¬ RATE_LIMIT_WINDOW < t - t0 := not_lt.mpr (hin t (List.mem_cons_self t ts))
    have hstep : rate_limited (some (t0, c)) t =
        (decide (RATE_LIMIT_MAX < c + 1), (t0, c + 1)) := by
      simp [rate_limited, ht]
    have hrest := ih (c + 1) (fun u hu => hin u (List.mem_cons_of_mem t hu))
    simp only [runLimiter, hstep, hrest, Prod.mk.injEq]
    refine ⟨?_, ?_⟩
    · rw [List.length_cons, List.range_succ_eq_map, List.map_cons, List.map_map]
      refine congrArg₂ _ (decide_eq_decide.mpr (by omega)) ?_
      exact List.map_congr_left fun i _ => by
        simp only [Function.comp_apply, Nat.succ_eq_add_one]
        exact decide_eq_decide.mpr (by omega)
    · have : c + 1 + ts.length = c + (ts.length + 1) := by omega
      rw [this]
      simp

/-- Running the limiter over concatenated request sequences. -/
lemma runLimiter_append (xs ys : List ℤ) : ∀ (b : Option Bucket),
    runLimiter b (xs ++ ys) =
      ((runLimiter b xs).1 ++ (runLimiter (runLimiter b xs).2 ys).1,
       (runLimiter (runLimiter b xs).2 ys).2) := by
  induction xs with
  | nil => intro b; simp [runLimiter]
  | cons x xs ih => intro b; simp [runLimiter, ih]

/-- C5.  For the ceiling `RATE_LIMIT_MAX = 60` per `RATE_LIMIT_WINDOW =
60` seconds: starting from a fresh bucket, the first 60 requests of one
window are all accepted, the 61st request in that window is rejected, and
the first request after the window elapses is accepted again with the
counter reset to 1. -/
theorem rate_limit_fixed_window (t0 : ℤ) (rest : List ℤ) (t' : ℤ)
    (hlen : rest.length = 60)
    (hin : ∀ t ∈ rest, t - t0 ≤ RATE_LIMIT_WINDOW)
    (hroll : RATE_LIMIT_WINDOW < t' - t0) :
    runLimiter none (t0 :: (rest ++ [t'])) =
      (false :: ((List.replicate 59 false ++ [true]) ++ [false]), some (t', 1)) := by
  have h0 : rate_limited none t0 = (false, (t0, 1)) := rfl
  have hwin := runLimiter_in_window t0 rest 1 hin
  have hlast : runLimiter (some (t0, 1 + rest.length)) [t'] = ([false], some (t', 1)) := by
    have hstep : rate_limited (some (t0, 1 + rest.length)) t' = (false, (t', 1)) := by
      simp [rate_limited, hroll]
    simp [runLimiter, hstep]
  have h1 : runLimiter none (t0 :: (rest ++ [t'])) =
      (false :: (runLimiter (some (t0, 1)) (rest ++ [t'])).1,
       (runLimiter (some (t0, 1)) (rest ++ [t'])).2) := by
    simp [runLimiter, h0]
  rw [h1, runLimiter_append, hwin, hlast, hlen]
  have hmap : (List.range 60).map (fun i => decide (RATE_LIMIT_MAX < 1 + i + 1)) =
      List.replicate 59 false ++ [true] := by decide
  rw [hmap]

/-- Witness for C5 at concrete request times: sixty further requests at
time 0 inside the window anchored at 0, then one request at time 61. -/
theorem rate_limit_fixed_window_witness :
    (List.replicate 60 (0:ℤ)).length = 60 ∧
    (∀ t ∈ List.replicate 60 (0:ℤ), t - 0 ≤ RATE_LIMIT_WINDOW) ∧
    RATE_LIMIT_WINDOW < (61:ℤ) - 0 ∧
    runLimiter none ((0:ℤ) :: (List.replicate 60 (0:ℤ) ++ [61])) =
      (false :: ((List.replicate 59 false ++ [true]) ++ [false]), some ((61:ℤ), 1)) := by
  refine ⟨by simp, ?_, by decide, ?_⟩
  · intro t ht
    rw [List.eq_of_mem_replicate ht]
    decide
  · exact rate_limit_fixed_window 0 _ 61 (by simp)
      (fun t ht => by rw [List.eq_of_mem_replicate ht]; decide) (by decide)

/-! ### Lemmas: classifier confidence bounds -/

lemma mlConf_nonneg {ml : Option ℚ} (hml : ∀ m, ml = some m → 0 ≤ m ∧ m ≤ 1) :
    0 ≤ mlConf ml := by
  cases ml with
  | none => simp [mlConf]
  | some m => simpa [mlConf] using (hml m rfl).1

lemma blend_bounds (n : ℕ) (q : ℚ) (hq : 0 ≤ q) :
    0 ≤ blend n q ∧ blend n q ≤ 1 := by
  unfold blend
  have hn : (0 : ℚ) ≤ (n : ℚ) / 12 := by positivity
  exact ⟨le_min (by linarith) (by norm_num), min_le_right _ _⟩

lemma blend_max_bounds (n : ℕ) (q : ℚ) (hq : 0 ≤ q) :
    0 ≤ max (blend n q) (7 / 10) ∧ max (blend n q) (7 / 10) ≤ 1 := by
  refine ⟨le_trans (by norm_num) (le_max_right _ _), ?_⟩
  exact max_le ((blend_bounds n q hq).2) (by norm_num)

/-- C4.  For every input text (the empty string included) and any
externally supplied probability in [0,1] (or none), `predict` returns a
confidence within [0,1] on every return path. -/
theorem confidence_in_unit (ds : List String) (ml : Option ℚ) (text : String)
    (hml : ∀ m, ml = some m → 0 ≤ m ∧ m ≤ 1) :
    0 ≤ (predict ds ml text).2 ∧ (predict ds ml text).2 ≤ 1 := by
  have hq := mlConf_nonneg hml
  simp only [predict]
  split
  · norm_num
  · split
    · exact blend_max_bounds _ _ hq
    · exact blend_bounds _ _ hq

/-- Witness for C4 with the model present at probability 1/2 and the
empty input string. -/
theorem confidence_in_unit_witness :
    (∀ m, (some (1 / 2 : ℚ)) = some m → 0 ≤ m ∧ m ≤ 1) ∧
    0 ≤ (predict [] (some (1 / 2)) "").2 ∧ (predict [] (some (1 / 2)) "").2 ≤ 1 := by
  have hml : ∀ m, (some (1 / 2 : ℚ)) = some m → 0 ≤ m ∧ m ≤ 1 := by
    intro m hm
    injection hm with h
    rw [← h]
    norm_num
  exact ⟨hml, confidence_in_unit [] (some (1 / 2)) "" hml⟩

/-! ### Lemmas: hard triggers -/

/-- Counterexample for C1 as stated.  The one-word message `"rahul@upi"`
contains a payment-identifier pattern (a hard trigger), yet `predict`
returns scam=false with confidence 0.05 — the short-message filter runs
before the hard-trigger rules.  And on `"pay to rahul@upi now"` (the
spec's own example) the hard trigger fires but the returned confidence is
exactly 0.7, not ≥ 0.85, and it is computed from the weighted score and
ML blend (then floored at 0.7), not by bypassing them. -/
theorem hard_trigger_counterexample :
    hardTrigger (normMsg "rahul@upi") = true ∧
    predict [] none "rahul@upi" = (false, 1 / 20) ∧
    hardTrigger (normMsg "pay to rahul@upi now") = true ∧
    2 < (splitWs (normMsg "pay to rahul@upi now")).length ∧
    predict [] none "pay to rahul@upi now" = (true, 7 / 10) := by
  have hscore : rawScore [] none (normMsg "pay to rahul@upi now") = 7 := by
    have h1 : kwScore (normMsg "pay to rahul@upi now") = 0 := by decide
    have h2 : hasUpi (normMsg "pay to rahul@upi now") = true := by decide
    have h3 : otpHit (normMsg "pay to rahul@upi now") = false := by decide
    have h4 : sendMoneyHit (normMsg "pay to rahul@upi now") = false := by decide
    have h5 : mlAdd none = 0 := by norm_num [mlAdd, mlConf, Rat.floor_def']
    simp [rawScore, dsScore, h1, h2, h3, h4, h5]
  refine ⟨by decide, rfl, by decide, by decide, ?_⟩
  have hshort : ¬ ((splitWs (normMsg "pay to rahul@upi now")).length ≤ 2) := by decide
  have hhard : hardTrigger (normMsg "pay to rahul@upi now") = true := by decide
  simp only [predict]
  rw [if_neg hshort, if_pos hhard, hscore]
  have : mlConf none = 0 := rfl
  rw [this]
  norm_num [blend, min_def, max_def]

/-- C1 (amended).  For every input text whose normalized form has more
than two words, the presence of a hard trigger — the payment-identifier
pattern, the token "otp", or "send" together with "money"/"amount" —
forces scam=true, with confidence the maximum of the blended weighted
score and the fixed floor 0.7 (hence ≥ 0.7, not ≥ 0.85; texts of at most
two words are short-circuited to not-scam before the hard triggers). -/
theorem hard_trigger_forces_scam (ds : List String) (ml : Option ℚ) (text : String)
    (hw : 2 < (splitWs (normMsg text)).length)
    (ht : hardTrigger (normMsg text) = true) :
    (predict ds ml text).1 = true ∧ 7 / 10 ≤ (predict ds ml text).2 := by
  simp only [predict]
  rw [if_neg (by omega), if_pos ht]
  exact ⟨rfl, le_max_right _ _⟩

/-- Witness for C1 (amended) on the spec's example text. -/
theorem hard_trigger_forces_scam_witness :
    2 < (splitWs (normMsg "pay to rahul@upi now")).length ∧
    hardTrigger (normMsg "pay to rahul@upi now") = true ∧
    (predict [] none "pay to rahul@upi now").1 = true ∧
    7 / 10 ≤ (predict [] none "pay to rahul@upi now").2 := by
  refine ⟨by decide, by decide, ?_⟩
  exact hard_trigger_forces_scam [] none "pay to rahul@upi now" (by decide) (by decide)

/-! ### Lemmas: the successful and rate-limited handler branches -/

/-- In a successful `/honeypot` call, every response field and every
store field is as the source computes it: the verdict and confidence come
from `predict` on the new message alone, the turn count and AI flag from
the appended history, the intelligence from extraction over the joined
history, and the store records the appended history, the incremented rate
bucket, and the updated UPI graph. -/
lemma honeypot_ok_spec (ds : List String) (ml : Option ℚ) (now : ℤ) (st : StoreState)
    (apiKeyOk : Bool) (ip : String) (cidOpt : Option String) (msg : String)
    (hok : isOkB ((honeypot ds ml now st apiKeyOk ip cidOpt msg).1) = true) :
    (okResp (honeypot ds ml now st apiKeyOk ip cidOpt msg).1).scam_detected = (predict ds ml msg).1 ∧
    (okResp (honeypot ds ml now st apiKeyOk ip cidOpt msg).1).confidence = (predict ds ml msg).2 ∧
    (okResp (honeypot ds ml now st apiKeyOk ip cidOpt msg).1).conversation_turns =
      (effHistory (st.memory (cidOpt.getD ip)) now ++ [msg]).length ∧
    (okResp (honeypot ds ml now st apiKeyOk ip cidOpt msg).1).ai_suspected =
      detect_ai (effHistory (st.memory (cidOpt.getD ip)) now ++ [msg]) ∧
    (okResp (honeypot ds ml now st apiKeyOk ip cidOpt msg).1).intel.upi_ids =
      (extract (joinSpace (effHistory (st.memory (cidOpt.getD ip)) now ++ [msg]))).1 ∧
    (okResp (honeypot ds ml now st apiKeyOk ip cidOpt msg).1).intel.bank_accounts =
      (extract (joinSpace (effHistory (st.memory (cidOpt.getD ip)) now ++ [msg]))).2.1 ∧
    (okResp (honeypot ds ml now st apiKeyOk ip cidOpt msg).1).intel.phishing_urls =
      (extract (joinSpace (effHistory (st.memory (cidOpt.getD ip)) now ++ [msg]))).2.2 ∧
    (honeypot ds ml now st apiKeyOk ip cidOpt msg).2.memory =
      supd st.memory (cidOpt.getD ip)
        (some (now, effHistory (st.memory (cidOpt.getD ip)) now ++ [msg])) ∧
    (honeypot ds ml now st apiKeyOk ip cidOpt msg).2.rate =
      supd st.rate ip (some (rate_limited (st.rate ip) now).2) ∧
    (honeypot ds ml now st apiKeyOk ip cidOpt msg).2.graph =
      update_graph st.graph
        (extract (joinSpace (effHistory (st.memory (cidOpt.getD ip)) now ++ [msg]))).1 := by
  cases apiKeyOk with
  | false => simp [honeypot, isOkB] at hok
  | true =>
    by_cases hrs : (rate_limited (st.rate ip) now).1 = true
    · simp [honeypot, hrs, isOkB] at hok
    · rw [Bool.not_eq_true] at hrs
      simp [honeypot, hrs, okResp]

/-- In a rate-limited `/honeypot` call, nothing but the caller's rate
bucket is touched. -/
lemma honeypot_limited_spec (ds : List String) (ml : Option ℚ) (now : ℤ) (st : StoreState)
    (apiKeyOk : Bool) (ip : String) (cidOpt : Option String) (msg : String)
    (hlim : (honeypot ds ml now st apiKeyOk ip cidOpt msg).1 =
      Except.error HError.rateLimited) :
    (honeypot ds ml now st apiKeyOk ip cidOpt msg).2.memory = st.memory ∧
    (honeypot ds ml now st apiKeyOk ip cidOpt msg).2.graph = st.graph ∧
    (honeypot ds ml now st apiKeyOk ip cidOpt msg).2.rate =
      supd st.rate ip (some (rate_limited (st.rate ip) now).2) := by
  cases apiKeyOk with
  | false => simp [honeypot] at hlim
  | true =>
    by_cases hrs : (rate_limited (st.rate ip) now).1 = true
    · simp [honeypot, hrs]
    · rw [Bool.not_eq_true] at hrs
      simp [honeypot, hrs] at hlim

/-- C7.  A request refused as rate-exceeded mutates nothing beyond the
client's rate-limit bucket: the session table and the artifact graph are
unchanged, every other client's bucket is unchanged, and the caller's
bucket holds exactly the incremented value of `rate_limited`. -/
theorem rate_reject_no_mutation (ds : List String) (ml : Option ℚ) (now : ℤ)
    (st : StoreState) (apiKeyOk : Bool) (ip : String) (cidOpt : Option String)
    (msg : String)
    (hlim : (honeypot ds ml now st apiKeyOk ip cidOpt msg).1 =
      Except.error HError.rateLimited) :
    (honeypot ds ml now st apiKeyOk ip cidOpt msg).2.memory = st.memory ∧
    (honeypot ds ml now st apiKeyOk ip cidOpt msg).2.graph = st.graph ∧
    (∀ k, k ≠ ip → (honeypot ds ml now st apiKeyOk ip cidOpt msg).2.rate k = st.rate k) ∧
    (honeypot ds ml now st apiKeyOk ip cidOpt msg).2.rate ip =
      some (rate_limited (st.rate ip) now).2 := by
  obtain ⟨hm, hg, hr⟩ := honeypot_limited_spec ds ml now st apiKeyOk ip cidOpt msg hlim
  refine ⟨hm, hg, ?_, ?_⟩
  · intro k hk
    rw [hr]
    simp [supd, hk]
  · rw [hr]
    simp [supd]

/-- Witness for C7: a client whose bucket already holds 60 requests in
the current window is refused, and only that bucket changes. -/
theorem rate_reject_no_mutation_witness :
    (honeypot [] none 5
        ⟨fun _ => none, fun k => if k = "ip" then some (0, 60) else none, fun _ => 0⟩
        true "ip" (some "c") "hello there friend").1 = Except.error HError.rateLimited ∧
    ((honeypot [] none 5
        ⟨fun _ => none, fun k => if k = "ip" then some (0, 60) else none, fun _ => 0⟩
        true "ip" (some "c") "hello there friend").2.memory =
      (⟨fun _ => none, fun k => if k = "ip" then some (0, 60) else none, fun _ => 0⟩ : StoreState).memory ∧
    (honeypot [] none 5
        ⟨fun _ => none, fun k => if k = "ip" then some (0, 60) else none, fun _ => 0⟩
        true "ip" (some "c") "hello there friend").2.graph =
      (⟨fun _ => none, fun k => if k = "ip" then some (0, 60) else none, fun _ => 0⟩ : StoreState).graph ∧
    (∀ k, k ≠ "ip" → (honeypot [] none 5
        ⟨fun _ => none, fun k => if k = "ip" then some (0, 60) else none, fun _ => 0⟩
        true "ip" (some "c") "hello there friend").2.rate k =
      (⟨fun _ => none, fun k => if k = "ip" then some (0, 60) else none, fun _ => 0⟩ : StoreState).rate k) ∧
    (honeypot [] none 5
        ⟨fun _ => none, fun k => if k = "ip" then some (0, 60) else none, fun _ => 0⟩
        true "ip" (some "c") "hello there friend").2.rate "ip" =
      some (rate_limited ((⟨fun _ => none, fun k => if k = "ip" then some (0, 60) else none, fun _ => 0⟩ : StoreState).rate "ip") 5).2) := by
  refine ⟨rfl, rate_reject_no_mutation [] none 5 _ true "ip" (some "c") "hello there friend" rfl⟩

/-! ### Lemmas: the AI-pattern heuristic -/

lemma dedup_three_iff (x y z : ℕ) :
    (([x, y, z] : List ℕ).dedup.length = 1) ↔ (x = y ∧ y = z) := by
  rcases eq_or_ne x y with hxy | hxy
  · subst hxy
    rcases eq_or_ne x z with hxz | hxz
    · subst hxz
      simp
    · have h1 : ([x, z] : List ℕ).dedup = [x, z] := by
        rw [List.dedup_cons_of_not_mem (by simp [hxz])]
        simp
      rw [show ([x, x, z] : List ℕ) = x :: [x, z] from rfl,
        List.dedup_cons_of_mem (by simp), h1]
      simp [hxz]
  · rcases eq_or_ne y z with hyz | hyz
    · subst hyz
      have h1 : ([y, y] : List ℕ).dedup = [y] := by
        rw [List.dedup_cons_of_mem (by simp)]
        simp
      rw [show ([x, y, y] : List ℕ) = x :: [y, y] from rfl,
        List.dedup_cons_of_not_mem (by simp [hxy]), h1]
      simp [hxy]
    · rcases eq_or_ne x z with hxz | hxz
      · subst hxz
        have h1 : ([y, x] : List ℕ).dedup = [y, x] := by
          rw [List.dedup_cons_of_not_mem (by simp [hyz])]
          simp
        rw [show ([x, y, x] : List ℕ) = x :: [y, x] from rfl,
          List.dedup_cons_of_mem (by simp), h1]
        simp [hxy]
      · have h1 : ([x, y, z] : List ℕ).dedup = [x, y, z] := by
          rw [List.dedup_cons_of_not_mem (by simp [hxy, hxz]),
            List.dedup_cons_of_not_mem (by simp [hyz])]
          simp
        rw [h1]
        simp [hxy]

/-- `detect_ai` on a history of at least three messages is exactly the
equal-word-count test on the last three. -/
lemma detect_ai_iff (pre : List String) (a b c : String) :
    (detect_ai (pre ++ [a, b, c]) = true ↔
      wordCount a = wordCount b ∧ wordCount b = wordCount c) := by
  have hlen : (pre ++ [a, b, c]).length = pre.length + 3 := by simp
  have hneg : ¬ ((pre ++ [a, b, c]).length < 3) := by simp [hlen]
  have hdrop : (pre ++ [a, b, c]).drop ((pre ++ [a, b, c]).length - 3) = [a, b, c] := by
    rw [hlen, show pre.length + 3 - 3 = pre.length from by omega, List.drop_left]
  unfold detect_ai
  rw [if_neg hneg, hdrop]
  simp only [List.map_cons, List.map_nil, decide_eq_true_eq]
  exact dedup_three_iff _ _ _

/-- C9.  For every session history with at least three messages, the
`ai_suspected` flag is true iff the last three messages have exactly
equal word counts; and in every successful `/honeypot` response the scam
verdict and confidence are exactly `predict` of the new message — a
function that never reads the flag, so the flag's value cannot affect
them. -/
theorem ai_flag_iff_and_never_gates (pre : List String) (a b c : String)
    (ds : List String) (ml : Option ℚ) (now : ℤ) (st : StoreState)
    (apiKeyOk : Bool) (ip : String) (cidOpt : Option String) (msg : String)
    (hok : isOkB ((honeypot ds ml now st apiKeyOk ip cidOpt msg).1) = true) :
    (detect_ai (pre ++ [a, b, c]) = true ↔
      wordCount a = wordCount b ∧ wordCount b = wordCount c) ∧
    (okResp (honeypot ds ml now st apiKeyOk ip cidOpt msg).1).scam_detected =
      (predict ds ml msg).1 ∧
    (okResp (honeypot ds ml now st apiKeyOk ip cidOpt msg).1).confidence =
      (predict ds ml msg).2 := by
  obtain ⟨h1, h2, -⟩ := honeypot_ok_spec ds ml now st apiKeyOk ip cidOpt msg hok
  exact ⟨detect_ai_iff pre a b c, h1, h2⟩

/-- Witness for C9: three two-word messages trip the flag, and a
successful call on an empty store reports `predict`'s verdict. -/
theorem ai_flag_iff_and_never_gates_witness :
    isOkB ((honeypot [] none 0 ⟨fun _ => none, fun _ => none, fun _ => 0⟩
      true "ip" none "hello you there").1) = true ∧
    ((detect_ai ([] ++ ["a b", "c d", "e f"]) = true ↔
      wordCount "a b" = wordCount "c d" ∧ wordCount "c d" = wordCount "e f") ∧
    (okResp (honeypot [] none 0 ⟨fun _ => none, fun _ => none, fun _ => 0⟩
      true "ip" none "hello you there").1).scam_detected =
      (predict [] none "hello you there").1 ∧
    (okResp (honeypot [] none 0 ⟨fun _ => none, fun _ => none, fun _ => 0⟩
      true "ip" none "hello you there").1).confidence =
      (predict [] none "hello you there").2) :=
  ⟨rfl, ai_flag_iff_and_never_gates [] "a b" "c d" "e f" [] none 0 _ true "ip" none
    "hello you there" rfl⟩

lemma effHistory_some (ts : ℤ) (h : List String) (now : ℤ) :
    effHistory (some (ts, h)) now = if MEMORY_TTL < now - ts then [] else h := rfl

/-- C10.  Every authenticated, non-rate-limited call appends exactly one
message to its session's history (other sessions untouched) and returns
`conversation_turns` equal to the history length after the append; for a
live (non-expired) session the turn count is the old length plus one; and
`ai_suspected` is false whenever the session still has fewer than three
messages. -/
theorem turns_append_one (ds : List String) (ml : Option ℚ) (now : ℤ)
    (st : StoreState) (apiKeyOk : Bool) (ip : String) (cidOpt : Option String)
    (msg : String)
    (hok : isOkB ((honeypot ds ml now st apiKeyOk ip cidOpt msg).1) = true) :
    (honeypot ds ml now st apiKeyOk ip cidOpt msg).2.memory (cidOpt.getD ip) =
      some (now, effHistory (st.memory (cidOpt.getD ip)) now ++ [msg]) ∧
    (∀ k, k ≠ cidOpt.getD ip →
      (honeypot ds ml now st apiKeyOk ip cidOpt msg).2.memory k = st.memory k) ∧
    (okResp (honeypot ds ml now st apiKeyOk ip cidOpt msg).1).conversation_turns =
      (effHistory (st.memory (cidOpt.getD ip)) now).length + 1 ∧
    (∀ ts h, st.memory (cidOpt.getD ip) = some (ts, h) → now - ts ≤ MEMORY_TTL →
      (okResp (honeypot ds ml now st apiKeyOk ip cidOpt msg).1).conversation_turns =
        h.length + 1) ∧
    ((okResp (honeypot ds ml now st apiKeyOk ip cidOpt msg).1).conversation_turns < 3 →
      (okResp (honeypot ds ml now st apiKeyOk ip cidOpt msg).1).ai_suspected = false) := by
  obtain ⟨-, -, hturns, hai, -, -, -, hmem, -, -⟩ :=
    honeypot_ok_spec ds ml now st apiKeyOk ip cidOpt msg hok
  refine ⟨?_, ?_, ?_, ?_, ?_⟩
  · rw [hmem]
    simp [supd]
  · intro k hk
    rw [hmem]
    simp [supd, hk]
  · rw [hturns]
    simp
  · intro ts h hrec hlive
    have heff : effHistory (st.memory (cidOpt.getD ip)) now = h := by
      rw [hrec, effHistory_some, if_neg (by omega)]
    rw [hturns, heff]
    simp
  · intro hlt
    rw [hturns] at hlt
    rw [hai]
    unfold detect_ai
    rw [if_pos (by omega)]

/-- Witness for C10 on a live one-message session: the call appends the
new message, reports two turns, leaves other sessions untouched, and the
two-message history cannot trip the AI flag. -/
theorem turns_append_one_witness :
    isOkB ((honeypot [] none 5
      ⟨fun k => if k = "c" then some (0, ["first message here"]) else none,
       fun _ => none, fun _ => 0⟩ true "ip" (some "c") "second message now").1) = true ∧
    ((honeypot [] none 5
      ⟨fun k => if k = "c" then some (0, ["first message here"]) else none,
       fun _ => none, fun _ => 0⟩ true "ip" (some "c") "second message now").2.memory
        ((some "c").getD "ip") =
      some (5, effHistory ((fun k => if k = "c" then some ((0:ℤ), ["first message here"]) else none) "c") 5 ++
        ["second message now"]) ∧
    (okResp (honeypot [] none 5
      ⟨fun k => if k = "c" then some (0, ["first message here"]) else none,
       fun _ => none, fun _ => 0⟩ true "ip" (some "c") "second message now").1).conversation_turns = 2 ∧
    (okResp (honeypot [] none 5
      ⟨fun k => if k = "c" then some (0, ["first message here"]) else none,
       fun _ => none, fun _ => 0⟩ true "ip" (some "c") "second message now").1).ai_suspected = false) := by
  have hok : isOkB ((honeypot [] none 5
      ⟨fun k => if k = "c" then some (0, ["first message here"]) else none,
       fun _ => none, fun _ => 0⟩ true "ip" (some "c") "second message now").1) = true := rfl
  obtain ⟨hm, -, -, hlive, hai⟩ := turns_append_one [] none 5
    ⟨fun k => if k = "c" then some (0, ["first message here"]) else none,
     fun _ => none, fun _ => 0⟩ true "ip" (some "c") "second message now" hok
  have hturns := hlive 0 ["first message here"] rfl (by decide)
  exact ⟨hok, hm, by rw [hturns]; rfl, hai (by rw [hturns]; decide)⟩

/-- C6.  A session record inactive for longer than `MEMORY_TTL` is
replaced on next access by a fresh one: the history handed to the handler
is empty, the stored history afterwards is just the new message, the turn
count is 1, and the reported intelligence is extracted from the new
message alone — nothing is carried over from the stale record. -/
theorem session_ttl_fresh (ds : List String) (ml : Option ℚ) (now : ℤ)
    (st : StoreState) (apiKeyOk : Bool) (ip : String) (cidOpt : Option String)
    (msg : String) (ts : ℤ) (h : List String)
    (hrec : st.memory (cidOpt.getD ip) = some (ts, h))
    (hexp : MEMORY_TTL < now - ts)
    (hok : isOkB ((honeypot ds ml now st apiKeyOk ip cidOpt msg).1) = true) :
    effHistory (st.memory (cidOpt.getD ip)) now = [] ∧
    (honeypot ds ml now st apiKeyOk ip cidOpt msg).2.memory (cidOpt.getD ip) =
      some (now, [msg]) ∧
    (okResp (honeypot ds ml now st apiKeyOk ip cidOpt msg).1).conversation_turns = 1 ∧
    (okResp (honeypot ds ml now st apiKeyOk ip cidOpt msg).1).intel.upi_ids =
      (extract (joinSpace [msg])).1 ∧
    (okResp (honeypot ds ml now st apiKeyOk ip cidOpt msg).1).intel.bank_accounts =
      (extract (joinSpace [msg])).2.1 ∧
    (okResp (honeypot ds ml now st apiKeyOk ip cidOpt msg).1).intel.phishing_urls =
      (extract (joinSpace [msg])).2.2 := by
  have heff : effHistory (st.memory (cidOpt.getD ip)) now = [] := by
    rw [hrec, effHistory_some, if_pos hexp]
  obtain ⟨-, -, hturns, -, hupi, hbank, hurl, hmem, -, -⟩ :=
    honeypot_ok_spec ds ml now st apiKeyOk ip cidOpt msg hok
  rw [heff] at hturns hupi hbank hurl hmem
  refine ⟨heff, ?_, ?_, ?_, ?_, ?_⟩
  · rw [hmem]
    simp [supd]
  · rw [hturns]
    rfl
  · simpa using hupi
  · simpa using hbank
  · simpa using hurl

/-- Witness for C6: a session stale by 2000 seconds whose old history
holds a payment identifier; the next access reports one turn and only the
new message's (empty) intelligence. -/
theorem session_ttl_fresh_witness :
    ((⟨fun k => if k = "c" then some (0, ["old stale old@upi"]) else none,
       fun _ => none, fun _ => 0⟩ : StoreState).memory ((some "c").getD "ip") =
        some ((0:ℤ), ["old stale old@upi"])) ∧
    MEMORY_TTL < (2000:ℤ) - 0 ∧
    isOkB ((honeypot [] none 2000
      ⟨fun k => if k = "c" then some (0, ["old stale old@upi"]) else none,
       fun _ => none, fun _ => 0⟩ true "ip" (some "c") "hello there friend").1) = true ∧
    (effHistory ((⟨fun k => if k = "c" then some (0, ["old stale old@upi"]) else none,
       fun _ => none, fun _ => 0⟩ : StoreState).memory ((some "c").getD "ip")) 2000 = [] ∧
    (honeypot [] none 2000
      ⟨fun k => if k = "c" then some (0, ["old stale old@upi"]) else none,
       fun _ => none, fun _ => 0⟩ true "ip" (some "c") "hello there friend").2.memory
        ((some "c").getD "ip") = some (2000, ["hello there friend"]) ∧
    (okResp (honeypot [] none 2000
      ⟨fun k => if k = "c" then some (0, ["old stale old@upi"]) else none,
       fun _ => none, fun _ => 0⟩ true "ip" (some "c") "hello there friend").1).conversation_turns = 1) := by
  refine ⟨rfl, by decide, rfl, ?_⟩
  obtain ⟨heff, hmem, hturns, -, -, -⟩ := session_ttl_fresh [] none 2000
    ⟨fun k => if k = "c" then some (0, ["old stale old@upi"]) else none,
     fun _ => none, fun _ => 0⟩ true "ip" (some "c") "hello there friend"
    0 ["old stale old@upi"] rfl (by decide) rfl
  exact ⟨heff, hmem, hturns⟩

/-! ### Lemmas: shapes of the extracted artifacts -/

/-- Every match emitted by the payment-identifier scan is a nonempty
`[\w.-]` run, an `@`, and a nonempty `[\w.-]` run. -/
lemma upiScanAux_shape : ∀ (fuel : ℕ) (l m : List Char), m ∈ upiScanAux fuel l →
    ∃ r1 r2 : List Char, m = r1 ++ '@' :: r2 ∧ r1 ≠ [] ∧ r2 ≠ [] ∧
      (∀ c ∈ r1, isUpiChar c = true) ∧ (∀ c ∈ r2, isUpiChar c = true) := by
  intro fuel
  induction fuel with
  | zero => intro l m hm; simp [upiScanAux] at hm
  | succ fuel ih =>
    intro l m hm
    cases l with
    | nil => simp [upiScanAux] at hm
    | cons c rest =>
      simp only [upiScanAux] at hm
      split at hm
      · rename_i hc
        split at hm
        · rename_i d tail3 hdw
          split at hm
          · rename_i hd
            rcases List.mem_cons.mp hm with hm1 | hm2
            · refine ⟨(c :: rest).takeWhile isUpiChar, (d :: tail3).takeWhile isUpiChar,
                hm1, ?_, ?_, fun x hx => List.mem_takeWhile_imp hx,
                fun x hx => List.mem_takeWhile_imp hx⟩
              · rw [List.takeWhile_cons, if_pos hc]
                simp
              · rw [List.takeWhile_cons, if_pos hd]
                simp
            · exact ih _ m hm2
          · exact ih rest m hm
        · exact ih rest m hm
      · exact ih rest m hm

/-- Every match emitted by the bank-account scan is a digit token of
length 9–18. -/
lemma bankScanAux_shape : ∀ (fuel : ℕ) (w : Bool) (l m : List Char),
    m ∈ bankScanAux fuel w l →
    (∀ c ∈ m, c.isDigit = true) ∧ 9 ≤ m.length ∧ m.length ≤ 18 := by
  intro fuel
  induction fuel with
  | zero => intro w l m hm; simp [bankScanAux] at hm
  | succ fuel ih =>
    intro w l m hm
    cases l with
    | nil => simp [bankScanAux] at hm
    | cons c rest =>
      simp only [bankScanAux] at hm
      split at hm
      · split at hm
        · rename_i hguard
          rcases List.mem_cons.mp hm with hm1 | hm2
          · subst hm1
            exact ⟨fun x hx => List.mem_takeWhile_imp hx, hguard.1, hguard.2.1⟩
          · exact ih _ _ m hm2
        · exact ih _ _ m hm
      · exact ih _ _ m hm

/-- A successful `tryUrl` match is an `http://` or `https://` head
followed by a nonempty whitespace-free run. -/
lemma tryUrl_some_shape (l m rem : List Char) (h : tryUrl l = some (m, rem)) :
    ∃ run : List Char, run ≠ [] ∧ (∀ c ∈ run, isSpaceChar c = false) ∧
      (m = httpChars ++ schemeRest ++ run ∨ m = httpChars ++ 's' :: schemeRest ++ run) := by
  unfold tryUrl at h
  split at h
  · split at h
    · split at h
      · exact absurd h (by simp)
      · rename_i hrun
        refine ⟨((l.drop 4).drop 4).takeWhile (fun c => !isSpaceChar c), hrun, ?_, Or.inr ?_⟩
        · intro x hx
          have := List.mem_takeWhile_imp hx
          simpa using this
        · have := (Option.some.injEq _ _).mp h
          exact (Prod.mk.injEq _ _ _ _).mp this |>.1.symm
    · split at h
      · split at h
        · exact absurd h (by simp)
        · rename_i hrun
          refine ⟨((l.drop 4).drop 3).takeWhile (fun c => !isSpaceChar c), hrun, ?_, Or.inl ?_⟩
          · intro x hx
            have := List.mem_takeWhile_imp hx
            simpa using this
          · have := (Option.some.injEq _ _).mp h
            exact (Prod.mk.injEq _ _ _ _).mp this |>.1.symm
      · exact absurd h (by simp)
  · exact absurd h (by simp)

/-- Every match emitted by the URL scan is an `http(s)://` URL. -/
lemma urlScanAux_shape : ∀ (fuel : ℕ) (l m : List Char), m ∈ urlScanAux fuel l →
    ∃ run : List Char, run ≠ [] ∧ (∀ c ∈ run, isSpaceChar c = false) ∧
      (m = httpChars ++ schemeRest ++ run ∨ m = httpChars ++ 's' :: schemeRest ++ run) := by
  intro fuel
  induction fuel with
  | zero => intro l m hm; simp [urlScanAux] at hm
  | succ fuel ih =>
    intro l m hm
    cases l with
    | nil => simp [urlScanAux] at hm
    | cons c rest =>
      simp only [urlScanAux] at hm
      split at hm
      · rename_i m' rem heq
        rcases List.mem_cons.mp hm with hm1 | hm2
        · subst hm1
          exact tryUrl_some_shape _ _ _ heq
        · exact ih _ m hm2
      · exact ih rest m hm

/-- Counterexample for C2 as stated: the source's `extract` produces no
phone-number set.  On the input `"+9112345678"` the spec's described
phone set is `{"+9112345678"}`, but `extract` returns exactly three
collections — no UPI match, the bare digit run as a bank-account token,
and no URL — and the claimed phone token is a member of none of them. -/
theorem extract_no_phone_counterexample :
    phoneTokensSpec ("+9112345678" : String).data = ["+9112345678"] ∧
    extract "+9112345678" = ([], ["9112345678"], []) ∧
    "+9112345678" ∉ (extract "+9112345678").1 ∧
    "+9112345678" ∉ (extract "+9112345678").2.1 ∧
    "+9112345678" ∉ (extract "+9112345678").2.2 := by
  refine ⟨by decide, by decide, by decide, by decide, by decide⟩

/-- C2 (amended).  For every input string the entity extractor returns
three deduplicated sets — payment identifiers of `local-part@domain-part`
token shape, numeric bank-account-like tokens of 9–18 digits, and
`http(s)://` URLs — and it never fails: it is a total function and the
empty string yields three empty sets.  (It returns no phone-number set;
that fourth set of the original claim does not exist in the code.) -/
theorem extract_three_sets (text : String) :
    (extract text).1.Nodup ∧ (extract text).2.1.Nodup ∧ (extract text).2.2.Nodup ∧
    (∀ x ∈ (extract text).1, ∃ r1 r2 : List Char,
      x.data = r1 ++ '@' :: r2 ∧ r1 ≠ [] ∧ r2 ≠ [] ∧
      (∀ c ∈ r1, isUpiChar c = true) ∧ (∀ c ∈ r2, isUpiChar c = true)) ∧
    (∀ x ∈ (extract text).2.1,
      (∀ c ∈ x.data, c.isDigit = true) ∧ 9 ≤ x.data.length ∧ x.data.length ≤ 18) ∧
    (∀ x ∈ (extract text).2.2, ∃ run : List Char,
      run ≠ [] ∧ (∀ c ∈ run, isSpaceChar c = false) ∧
      (x.data = httpChars ++ schemeRest ++ run ∨
       x.data = httpChars ++ 's' :: schemeRest ++ run)) ∧
    extract "" = ([], [], []) := by
  refine ⟨List.nodup_dedup _, List.nodup_dedup _, List.nodup_dedup _, ?_, ?_, ?_, rfl⟩
  · intro x hx
    obtain ⟨m, hm, hxm⟩ := List.mem_map.mp (List.mem_dedup.mp hx)
    subst hxm
    exact upiScanAux_shape _ _ m hm
  · intro x hx
    obtain ⟨m, hm, hxm⟩ := List.mem_map.mp (List.mem_dedup.mp hx)
    subst hxm
    exact bankScanAux_shape _ _ _ m hm
  · intro x hx
    obtain ⟨m, hm, hxm⟩ := List.mem_map.mp (List.mem_dedup.mp hx)
    subst hxm
    exact urlScanAux_shape _ _ m hm

/-! ### Lemmas: scanning a space-joined concatenation

The three scans decompose over `a ++ ' ' :: b`: no match of any of the
three regexes can contain a space, so the matches of the joined text are
the matches of the pieces.  This is the heart of the intelligence
monotonicity claim: the joined history only ever grows on the right. -/

lemma takeWhile_append_not {p : Char → Bool} {x : Char} (hx : p x = false)
    (a b : List Char) : ((a ++ x :: b).takeWhile p) = a.takeWhile p := by
  induction a with
  | nil => simp [List.takeWhile_cons, hx]
  | cons c a ih => simp [List.cons_append, List.takeWhile_cons, ih]

lemma dropWhile_append_not {p : Char → Bool} {x : Char} (hx : p x = false)
    (a b : List Char) : ((a ++ x :: b).dropWhile p) = a.dropWhile p ++ x :: b := by
  induction a with
  | nil => simp [List.dropWhile_cons, hx]
  | cons c a ih =>
    rw [List.cons_append, List.dropWhile_cons, List.dropWhile_cons]
    split <;> simp [ih]

lemma length_dropWhile_le (p : Char → Bool) (l : List Char) :
    (l.dropWhile p).length ≤ l.length :=
  (List.dropWhile_sublist p).length_le

lemma upiScanAux_nil (f : ℕ) : upiScanAux f [] = [] := by
  cases f <;> rfl

/-- Scanner step when no payment-identifier match starts at this
position. -/
lemma upiScanAux_cons_fail (f : ℕ) (c : Char) (rest : List Char)
    (h : ∀ d t3, (c :: rest).dropWhile isUpiChar = '@' :: d :: t3 →
      isUpiChar d = false) :
    upiScanAux (f + 1) (c :: rest) = upiScanAux f rest := by
  simp only [upiScanAux]
  split
  · split
    · rename_i d t3 heq
      rw [if_neg (by rw [h d t3 heq]; simp)]
    · rfl
  · rfl

/-- Scanner step at a successful payment-identifier match. -/
lemma upiScanAux_cons_match (f : ℕ) (c : Char) (rest : List Char)
    (d : Char) (t3 : List Char) (hc : isUpiChar c = true)
    (hdw : (c :: rest).dropWhile isUpiChar = '@' :: d :: t3)
    (hd : isUpiChar d = true) :
    upiScanAux (f + 1) (c :: rest) =
      ((c :: rest).takeWhile isUpiChar ++ '@' :: (d :: t3).takeWhile isUpiChar)
        :: upiScanAux f ((d :: t3).dropWhile isUpiChar) := by
  simp only [upiScanAux]
  rw [if_pos hc]
  split
  · rename_i d' t3' heq
    rw [hdw] at heq
    injection heq with h1 h2
    injection h2 with h2 h3
    subst h2
    subst h3
    rw [if_pos hd]
  · rename_i hne
    exact absurd hdw (by intro hc2; exact hne d t3 hc2)

/-- Scanner step when the head character is not in the `[\\w.-]` class. -/
lemma upiScanAux_cons_neg (f : ℕ) (c : Char) (rest : List Char)
    (hc : isUpiChar c = false) :
    upiScanAux (f + 1) (c :: rest) = upiScanAux f rest := by
  simp only [upiScanAux]
  rw [if_neg (by simp [hc])]

/-- The payment-identifier scan is independent of the fuel, given enough
of it. -/
lemma upiScanAux_congr : ∀ (f g : ℕ) (l : List Char),
    l.length ≤ f → l.length ≤ g → upiScanAux f l = upiScanAux g l := by
  intro f
  induction f with
  | zero =>
    intro g l hf _
    have : l = [] := List.length_eq_zero.mp (Nat.le_zero.mp hf)
    subst this
    rw [upiScanAux_nil, upiScanAux_nil]
  | succ f ih =>
    intro g l hf hg
    cases l with
    | nil => rw [upiScanAux_nil, upiScanAux_nil]
    | cons c rest =>
      cases g with
      | zero => simp at hg
      | succ g =>
        simp only [List.length_cons] at hf hg
        by_cases hc : isUpiChar c = true
        · rcases hdres : (c :: rest).dropWhile isUpiChar with _ | ⟨e, tl⟩
          · rw [upiScanAux_cons_fail f c rest (by rw [hdres]; intro d t3 h; cases h),
              upiScanAux_cons_fail g c rest (by rw [hdres]; intro d t3 h; cases h)]
            exact ih g rest (by omega) (by omega)
          · by_cases he : e = '@'
            · subst he
              cases tl with
              | nil =>
                rw [upiScanAux_cons_fail f c rest
                    (by rw [hdres]; intro d t3 h; injection h with h1 h2; cases h2),
                  upiScanAux_cons_fail g c rest
                    (by rw [hdres]; intro d t3 h; injection h with h1 h2; cases h2)]
                exact ih g rest (by omega) (by omega)
              | cons d t3 =>
                by_cases hd : isUpiChar d = true
                · rw [upiScanAux_cons_match f c rest d t3 hc hdres hd,
                    upiScanAux_cons_match g c rest d t3 hc hdres hd]
                  have hlen1 : t3.length + 2 ≤ rest.length + 1 := by
                    have := length_dropWhile_le isUpiChar (c :: rest)
                    rw [hdres] at this
                    simpa using this
                  have hlen2 : ((d :: t3).dropWhile isUpiChar).length ≤ t3.length + 1 := by
                    simpa using length_dropWhile_le isUpiChar (d :: t3)
                  rw [ih g ((d :: t3).dropWhile isUpiChar) (by omega) (by omega)]
                · rw [Bool.not_eq_true] at hd
                  have hfail : ∀ d' t3', (c :: rest).dropWhile isUpiChar = '@' :: d' :: t3' →
                      isUpiChar d' = false := by
                    rw [hdres]
                    intro d' t3' h
                    injection h with h1 h2
                    injection h2 with h2 h3
                    subst h2
                    exact hd
                  rw [upiScanAux_cons_fail f c rest hfail, upiScanAux_cons_fail g c rest hfail]
                  exact ih g rest (by omega) (by omega)
            · have hfail : ∀ d' t3', (c :: rest).dropWhile isUpiChar = '@' :: d' :: t3' →
                  isUpiChar d' = false := by
                rw [hdres]
                intro d' t3' h
                injection h with h1 h2
                exact absurd h1 he
              rw [upiScanAux_cons_fail f c rest hfail, upiScanAux_cons_fail g c rest hfail]
              exact ih g rest (by omega) (by omega)
        · rw [Bool.not_eq_true] at hc
          rw [upiScanAux_cons_neg f c rest hc, upiScanAux_cons_neg g c rest hc]
          exact ih g rest (by omega) (by omega)

/-- The payment-identifier scan of a space-joined concatenation is the
concatenation of the scans: no `[\w.-]+@[\w.-]+` match contains a
space. -/
lemma upiScanAux_decomp : ∀ (f : ℕ) (a : List Char) (fa : ℕ) (b : List Char) (fb : ℕ),
    a.length + b.length + 1 ≤ f → a.length ≤ fa → b.length ≤ fb →
    upiScanAux f (a ++ ' ' :: b) = upiScanAux fa a ++ upiScanAux fb b := by
  intro f
  induction f with
  | zero =>
    intro a fa b fb hf _ _
    exact absurd hf (by omega)
  | succ f ih =>
    intro a fa b fb hf hfa hfb
    cases a with
    | nil =>
      rw [List.nil_append, upiScanAux_nil, List.nil_append,
        upiScanAux_cons_neg f ' ' b (by decide)]
      simp only [List.length_nil] at hf
      exact upiScanAux_congr f fb b (by omega) hfb
    | cons c a2 =>
      rw [List.cons_append]
      cases fa with
      | zero => simp at hfa
      | succ fa =>
        simp only [List.length_cons] at hf hfa
        by_cases hc : isUpiChar c = true
        · have hds : (c :: (a2 ++ ' ' :: b)).dropWhile isUpiChar =
              (c :: a2).dropWhile isUpiChar ++ ' ' :: b := by
            rw [← List.cons_append]
            exact dropWhile_append_not (by decide) (c :: a2) b
          rcases hdres : (c :: a2).dropWhile isUpiChar with _ | ⟨e, tl⟩
          · have hfailL : ∀ d t3, (c :: (a2 ++ ' ' :: b)).dropWhile isUpiChar =
                '@' :: d :: t3 → isUpiChar d = false := by
              intro d t3 h
              rw [hds, hdres, List.nil_append] at h
              injection h with h1 _
              exact absurd h1 (by decide)
            have hfailR : ∀ d t3, (c :: a2).dropWhile isUpiChar =
                '@' :: d :: t3 → isUpiChar d = false := by
              rw [hdres]
              intro d t3 h
              cases h
            rw [upiScanAux_cons_fail f c _ hfailL, upiScanAux_cons_fail fa c a2 hfailR]
            exact ih a2 fa b fb (by omega) (by omega) hfb
          · by_cases he : e = '@'
            · subst he
              cases tl with
              | nil =>
                have hfailL : ∀ d t3, (c :: (a2 ++ ' ' :: b)).dropWhile isUpiChar =
                    '@' :: d :: t3 → isUpiChar d = false := by
                  intro d t3 h
                  rw [hds, hdres] at h
                  injection h with h1 h2
                  injection h2 with h2 h3
                  subst h2
                  decide
                have hfailR : ∀ d t3, (c :: a2).dropWhile isUpiChar =
                    '@' :: d :: t3 → isUpiChar d = false := by
                  rw [hdres]
                  intro d t3 h
                  injection h with h1 h2
                  cases h2
                rw [upiScanAux_cons_fail f c _ hfailL, upiScanAux_cons_fail fa c a2 hfailR]
                exact ih a2 fa b fb (by omega) (by omega) hfb
              | cons d t3 =>
                by_cases hd : isUpiChar d = true
                · have hdwL : (c :: (a2 ++ ' ' :: b)).dropWhile isUpiChar =
                      '@' :: d :: (t3 ++ ' ' :: b) := by
                    rw [hds, hdres]
                    rfl
                  rw [upiScanAux_cons_match f c _ d (t3 ++ ' ' :: b) hc hdwL hd,
                    upiScanAux_cons_match fa c a2 d t3 hc hdres hd, List.cons_append]
                  have htake1 : (c :: (a2 ++ ' ' :: b)).takeWhile isUpiChar =
                      (c :: a2).takeWhile isUpiChar := by
                    rw [← List.cons_append]
                    exact takeWhile_append_not (by decide) (c :: a2) b
                  have htake2 : ((d :: (t3 ++ ' ' :: b)).takeWhile isUpiChar) =
                      (d :: t3).takeWhile isUpiChar := by
                    rw [← List.cons_append]
                    exact takeWhile_append_not (by decide) (d :: t3) b
                  have hdrop2 : ((d :: (t3 ++ ' ' :: b)).dropWhile isUpiChar) =
                      (d :: t3).dropWhile isUpiChar ++ ' ' :: b := by
                    rw [← List.cons_append]
                    exact dropWhile_append_not (by decide) (d :: t3) b
                  rw [htake1, htake2, hdrop2]
                  have hlen1 : t3.length + 2 ≤ a2.length + 1 := by
                    have := length_dropWhile_le isUpiChar (c :: a2)
                    rw [hdres] at this
                    simpa using this
                  have hlen2 : ((d :: t3).dropWhile isUpiChar).length ≤ t3.length + 1 := by
                    simpa using length_dropWhile_le isUpiChar (d :: t3)
                  congr 1
                  exact ih ((d :: t3).dropWhile isUpiChar) fa b fb (by omega) (by omega) hfb
                · rw [Bool.not_eq_true] at hd
                  have hfailL : ∀ d' t3', (c :: (a2 ++ ' ' :: b)).dropWhile isUpiChar =
                      '@' :: d' :: t3' → isUpiChar d' = false := by
                    intro d' t3' h
                    rw [hds, hdres] at h
                    injection h with h1 h2
                    injection h2 with h2 h3
                    subst h2
                    exact hd
                  have hfailR : ∀ d' t3', (c :: a2).dropWhile isUpiChar =
                      '@' :: d' :: t3' → isUpiChar d' = false := by
                    rw [hdres]
                    intro d' t3' h
                    injection h with h1 h2
                    injection h2 with h2 h3
                    subst h2
                    exact hd
                  rw [upiScanAux_cons_fail f c _ hfailL, upiScanAux_cons_fail fa c a2 hfailR]
                  exact ih a2 fa b fb (by omega) (by omega) hfb
            · have hfailL : ∀ d t3, (c :: (a2 ++ ' ' :: b)).dropWhile isUpiChar =
                  '@' :: d :: t3 → isUpiChar d = false := by
                intro d t3 h
                rw [hds, hdres, List.cons_append] at h
                injection h with h1 _
                exact absurd h1 he
              have hfailR : ∀ d t3, (c :: a2).dropWhile isUpiChar =
                  '@' :: d :: t3 → isUpiChar d = false := by
                rw [hdres]
                intro d t3 h
                injection h with h1 _
                exact absurd h1 he
              rw [upiScanAux_cons_fail f c _ hfailL, upiScanAux_cons_fail fa c a2 hfailR]
              exact ih a2 fa b fb (by omega) (by omega) hfb
        · rw [Bool.not_eq_true] at hc
          rw [upiScanAux_cons_neg f c _ hc, upiScanAux_cons_neg fa c a2 hc]
          exact ih a2 fa b fb (by omega) (by omega) hfb

/-- Decomposition of the top-level payment-identifier scan. -/
lemma upiScan_append (a b : List Char) :
    upiScan (a ++ ' ' :: b) = upiScan a ++ upiScan b := by
  unfold upiScan
  rw [upiScanAux_decomp (a ++ ' ' :: b).length a a.length b b.length
    (by simp; omega) le_rfl le_rfl]

lemma bankScanAux_nil (f : ℕ) (w : Bool) : bankScanAux f w [] = [] := by
  cases f <;> rfl

/-- Scanner step at a successful bank-account match. -/
lemma bankScanAux_cons_match (f : ℕ) (w : Bool) (c : Char) (rest : List Char)
    (hcw : (c.isDigit && !w) = true)
    (hguard : 9 ≤ ((c :: rest).takeWhile Char.isDigit).length ∧
        ((c :: rest).takeWhile Char.isDigit).length ≤ 18 ∧
        headWord ((c :: rest).dropWhile Char.isDigit) = false) :
    bankScanAux (f + 1) w (c :: rest) =
      (c :: rest).takeWhile Char.isDigit
        :: bankScanAux f true ((c :: rest).dropWhile Char.isDigit) := by
  simp only [bankScanAux]
  rw [if_pos hcw, if_pos hguard]

/-- Scanner step when no bank-account match starts at this position. -/
lemma bankScanAux_cons_fail (f : ℕ) (w : Bool) (c : Char) (rest : List Char)
    (h : (c.isDigit && !w) = false ∨
      ¬(9 ≤ ((c :: rest).takeWhile Char.isDigit).length ∧
        ((c :: rest).takeWhile Char.isDigit).length ≤ 18 ∧
        headWord ((c :: rest).dropWhile Char.isDigit) = false)) :
    bankScanAux (f + 1) w (c :: rest) = bankScanAux f (isWordChar c) rest := by
  simp only [bankScanAux]
  rcases h with h1 | h2
  · rw [if_neg (by simp [h1])]
  · by_cases h1 : (c.isDigit && !w) = true
    · rw [if_pos h1, if_neg h2]
    · rw [if_neg h1]

/-- The bank-account scan is independent of the fuel, given enough of
it. -/
lemma bankScanAux_congr : ∀ (f g : ℕ) (w : Bool) (l : List Char),
    l.length ≤ f → l.length ≤ g → bankScanAux f w l = bankScanAux g w l := by
  intro f
  induction f with
  | zero =>
    intro g w l hf _
    have : l = [] := List.length_eq_zero.mp (Nat.le_zero.mp hf)
    subst this
    rw [bankScanAux_nil, bankScanAux_nil]
  | succ f ih =>
    intro g w l hf hg
    cases l with
    | nil => rw [bankScanAux_nil, bankScanAux_nil]
    | cons c rest =>
      cases g with
      | zero => simp at hg
      | succ g =>
        simp only [List.length_cons] at hf hg
        by_cases h1 : (c.isDigit && !w) = true
        · by_cases hguard : 9 ≤ ((c :: rest).takeWhile Char.isDigit).length ∧
              ((c :: rest).takeWhile Char.isDigit).length ≤ 18 ∧
              headWord ((c :: rest).dropWhile Char.isDigit) = false
          · rw [bankScanAux_cons_match f w c rest h1 hguard,
              bankScanAux_cons_match g w c rest h1 hguard]
            have hcd : c.isDigit = true := by
              have hboth := h1
              simp only [Bool.and_eq_true] at hboth
              exact hboth.1
            have hlen : ((c :: rest).dropWhile Char.isDigit).length ≤ rest.length := by
              rw [List.dropWhile_cons, if_pos hcd]
              exact length_dropWhile_le _ _
            rw [ih g true ((c :: rest).dropWhile Char.isDigit) (by omega) (by omega)]
          · rw [bankScanAux_cons_fail f w c rest (Or.inr hguard),
              bankScanAux_cons_fail g w c rest (Or.inr hguard)]
            exact ih g (isWordChar c) rest (by omega) (by omega)
        · rw [Bool.not_eq_true] at h1
          rw [bankScanAux_cons_fail f w c rest (Or.inl h1),
            bankScanAux_cons_fail g w c rest (Or.inl h1)]
          exact ih g (isWordChar c) rest (by omega) (by omega)

lemma headWord_append_space (a b : List Char) :
    headWord (a ++ ' ' :: b) = headWord a := by
  cases a with
  | nil =>
    show isWordChar ' ' = false
    decide
  | cons x xs => rfl

/-- The bank-account scan of a space-joined concatenation is the
concatenation of the scans (the space is a word boundary on both
sides). -/
lemma bankScanAux_decomp : ∀ (f : ℕ) (a : List Char) (fa : ℕ) (b : List Char) (fb : ℕ)
    (w : Bool), a.length + b.length + 1 ≤ f → a.length ≤ fa → b.length ≤ fb →
    bankScanAux f w (a ++ ' ' :: b) = bankScanAux fa w a ++ bankScanAux fb false b := by
  intro f
  induction f with
  | zero =>
    intro a fa b fb w hf _ _
    exact absurd hf (by omega)
  | succ f ih =>
    intro a fa b fb w hf hfa hfb
    cases a with
    | nil =>
      rw [List.nil_append, bankScanAux_nil, List.nil_append,
        bankScanAux_cons_fail f w ' ' b
          (Or.inl (by rw [show (' ').isDigit = false from by decide]; simp)),
        show isWordChar ' ' = false from by decide]
      simp only [List.length_nil] at hf
      exact bankScanAux_congr f fb false b (by omega) hfb
    | cons c a2 =>
      rw [List.cons_append]
      cases fa with
      | zero => simp at hfa
      | succ fa =>
        simp only [List.length_cons] at hf hfa
        have htake : (c :: (a2 ++ ' ' :: b)).takeWhile Char.isDigit =
            (c :: a2).takeWhile Char.isDigit := by
          rw [← List.cons_append]
          exact takeWhile_append_not (by decide) (c :: a2) b
        have hdrop : (c :: (a2 ++ ' ' :: b)).dropWhile Char.isDigit =
            (c :: a2).dropWhile Char.isDigit ++ ' ' :: b := by
          rw [← List.cons_append]
          exact dropWhile_append_not (by decide) (c :: a2) b
        by_cases h1 : (c.isDigit && !w) = true
        · by_cases hguard : 9 ≤ ((c :: a2).takeWhile Char.isDigit).length ∧
              ((c :: a2).takeWhile Char.isDigit).length ≤ 18 ∧
              headWord ((c :: a2).dropWhile Char.isDigit) = false
          · have hguardL : 9 ≤ ((c :: (a2 ++ ' ' :: b)).takeWhile Char.isDigit).length ∧
                ((c :: (a2 ++ ' ' :: b)).takeWhile Char.isDigit).length ≤ 18 ∧
                headWord ((c :: (a2 ++ ' ' :: b)).dropWhile Char.isDigit) = false := by
              rw [htake, hdrop, headWord_append_space]
              exact hguard
            rw [bankScanAux_cons_match f w c _ h1 hguardL,
              bankScanAux_cons_match fa w c a2 h1 hguard, List.cons_append,
              htake, hdrop]
            have hcd : c.isDigit = true := by
              have hboth := h1
              simp only [Bool.and_eq_true] at hboth
              exact hboth.1
            have hlen : ((c :: a2).dropWhile Char.isDigit).length ≤ a2.length := by
              rw [List.dropWhile_cons, if_pos hcd]
              exact length_dropWhile_le _ _
            congr 1
            exact ih ((c :: a2).dropWhile Char.isDigit) fa b fb true
              (by omega) (by omega) hfb
          · have hguardL : ¬(9 ≤ ((c :: (a2 ++ ' ' :: b)).takeWhile Char.isDigit).length ∧
                ((c :: (a2 ++ ' ' :: b)).takeWhile Char.isDigit).length ≤ 18 ∧
                headWord ((c :: (a2 ++ ' ' :: b)).dropWhile Char.isDigit) = false) := by
              rw [htake, hdrop, headWord_append_space]
              exact hguard
            rw [bankScanAux_cons_fail f w c _ (Or.inr hguardL),
              bankScanAux_cons_fail fa w c a2 (Or.inr hguard)]
            exact ih a2 fa b fb (isWordChar c) (by omega) (by omega) hfb
        · rw [Bool.not_eq_true] at h1
          rw [bankScanAux_cons_fail f w c _ (Or.inl h1),
            bankScanAux_cons_fail fa w c a2 (Or.inl h1)]
          exact ih a2 fa b fb (isWordChar c) (by omega) (by omega) hfb

/-- Decomposition of the top-level bank-account scan. -/
lemma bankScan_append (a b : List Char) :
    bankScan (a ++ ' ' :: b) = bankScan a ++ bankScan b := by
  unfold bankScan
  rw [bankScanAux_decomp (a ++ ' ' :: b).length a a.length b b.length false
    (by simp; omega) le_rfl le_rfl]

/-- A space-free pattern is a prefix of `a ++ ' ' :: b` iff it is a
prefix of `a`. -/
lemma isPrefixOf_append_space : ∀ (pat a b : List Char), (' ' ∈ pat → False) →
    pat.isPrefixOf (a ++ ' ' :: b) = pat.isPrefixOf a := by
  intro pat
  induction pat with
  | nil => intro a b _; simp [List.isPrefixOf]
  | cons p ps ih =>
    intro a b hs
    cases a with
    | nil =>
      have hp : (p == ' ') = false := by
        have : p ≠ ' ' := fun h => hs (h ▸ List.mem_cons_self p ps)
        simpa using this
      simp [List.isPrefixOf, hp]
    | cons x xs =>
      simp only [List.cons_append, List.isPrefixOf, List.append_eq]
      rw [ih xs b (fun h => hs (List.mem_cons_of_mem p h))]

lemma isPrefixOf_length_le {pat l : List Char} (h : pat.isPrefixOf l = true) :
    pat.length ≤ l.length :=
  (List.isPrefixOf_iff_prefix.mp h).length_le

/-- `tryUrl` on a space-joined concatenation: a match at the head of the
left part is unchanged (its whitespace-free run stops at the space), and
a failure stays a failure. -/
lemma tryUrl_append (a b : List Char) :
    tryUrl (a ++ ' ' :: b) = (tryUrl a).map (fun p => (p.1, p.2 ++ ' ' :: b)) := by
  unfold tryUrl
  by_cases h1 : httpChars.isPrefixOf a = true
  · have h4 : 4 ≤ a.length := isPrefixOf_length_le h1
    have h1' : httpChars.isPrefixOf (a ++ ' ' :: b) = true := by
      rw [isPrefixOf_append_space httpChars a b (by decide)]
      exact h1
    have hdrop4 : (a ++ ' ' :: b).drop 4 = a.drop 4 ++ ' ' :: b :=
      List.drop_append_of_le_length h4
    rw [if_pos h1', if_pos h1, hdrop4]
    by_cases h2 : schemeRestS.isPrefixOf (a.drop 4) = true
    · have h2' : schemeRestS.isPrefixOf (a.drop 4 ++ ' ' :: b) = true := by
        rw [isPrefixOf_append_space schemeRestS (a.drop 4) b (by decide)]
        exact h2
      have h44 : 4 ≤ (a.drop 4).length := isPrefixOf_length_le h2
      have hdrop44 : (a.drop 4 ++ ' ' :: b).drop 4 = (a.drop 4).drop 4 ++ ' ' :: b :=
        List.drop_append_of_le_length h44
      rw [if_pos h2', if_pos h2, hdrop44,
        takeWhile_append_not (p := fun c => !isSpaceChar c) (by decide) ((a.drop 4).drop 4) b,
        dropWhile_append_not (p := fun c => !isSpaceChar c) (by decide) ((a.drop 4).drop 4) b]
      by_cases h3 : ((a.drop 4).drop 4).takeWhile (fun c => !isSpaceChar c) = []
      · rw [if_pos h3, if_pos h3]
        rfl
      · rw [if_neg h3, if_neg h3]
        rfl
    · have h2' : ¬ schemeRestS.isPrefixOf (a.drop 4 ++ ' ' :: b) = true := by
        rw [isPrefixOf_append_space schemeRestS (a.drop 4) b (by decide)]
        exact h2
      rw [if_neg h2', if_neg h2]
      by_cases h5 : schemeRest.isPrefixOf (a.drop 4) = true
      · have h5' : schemeRest.isPrefixOf (a.drop 4 ++ ' ' :: b) = true := by
          rw [isPrefixOf_append_space schemeRest (a.drop 4) b (by decide)]
          exact h5
        have h43 : 3 ≤ (a.drop 4).length := isPrefixOf_length_le h5
        have hdrop43 : (a.drop 4 ++ ' ' :: b).drop 3 = (a.drop 4).drop 3 ++ ' ' :: b :=
          List.drop_append_of_le_length h43
        rw [if_pos h5', if_pos h5, hdrop43,
          takeWhile_append_not (p := fun c => !isSpaceChar c) (by decide) ((a.drop 4).drop 3) b,
          dropWhile_append_not (p := fun c => !isSpaceChar c) (by decide) ((a.drop 4).drop 3) b]
        by_cases h3 : ((a.drop 4).drop 3).takeWhile (fun c => !isSpaceChar c) = []
        · rw [if_pos h3, if_pos h3]
          rfl
        · rw [if_neg h3, if_neg h3]
          rfl
      · have h5' : ¬ schemeRest.isPrefixOf (a.drop 4 ++ ' ' :: b) = true := by
          rw [isPrefixOf_append_space schemeRest (a.drop 4) b (by decide)]
          exact h5
        rw [if_neg h5', if_neg h5]
        rfl
  · have h1' : ¬ httpChars.isPrefixOf (a ++ ' ' :: b) = true := by
      rw [isPrefixOf_append_space httpChars a b (by decide)]
      exact h1
    rw [if_neg h1', if_neg h1]
    rfl

/-- A successful `tryUrl` consumes at least one character. -/
lemma tryUrl_some_length (l m rem : List Char) (h : tryUrl l = some (m, rem)) :
    rem.length < l.length := by
  unfold tryUrl at h
  split at h
  · rename_i h1
    have h4 : 4 ≤ l.length := isPrefixOf_length_le h1
    split at h
    · split at h
      · exact absurd h (by simp)
      · have hrem : rem = ((l.drop 4).drop 4).dropWhile (fun c => !isSpaceChar c) := by
          have := (Option.some.injEq _ _).mp h
          exact ((Prod.mk.injEq _ _ _ _).mp this).2.symm
        have hle := length_dropWhile_le (fun c => !isSpaceChar c) ((l.drop 4).drop 4)
        rw [← hrem] at hle
        have : ((l.drop 4).drop 4).length = l.length - 8 := by
          rw [List.length_drop, List.length_drop]
          omega
        omega
    · split at h
      · split at h
        · exact absurd h (by simp)
        · have hrem : rem = ((l.drop 4).drop 3).dropWhile (fun c => !isSpaceChar c) := by
            have := (Option.some.injEq _ _).mp h
            exact ((Prod.mk.injEq _ _ _ _).mp this).2.symm
          have hle := length_dropWhile_le (fun c => !isSpaceChar c) ((l.drop 4).drop 3)
          rw [← hrem] at hle
          have : ((l.drop 4).drop 3).length = l.length - 7 := by
            rw [List.length_drop, List.length_drop]
            omega
          omega
      · exact absurd h (by simp)
  · exact absurd h (by simp)

lemma urlScanAux_nil (f : ℕ) : urlScanAux f [] = [] := by
  cases f <;> rfl

/-- Scanner step at a successful URL match. -/
lemma urlScanAux_cons_some (f : ℕ) (c : Char) (rest m rem : List Char)
    (h : tryUrl (c :: rest) = some (m, rem)) :
    urlScanAux (f + 1) (c :: rest) = m :: urlScanAux f rem := by
  simp only [urlScanAux]
  split
  · rename_i m' rem' heq
    rw [h] at heq
    injection heq with heq
    injection heq with hm hrem
    rw [hm, hrem]
  · rename_i heq
    rw [h] at heq
    exact absurd heq (by simp)

/-- Scanner step when no URL match starts at this position. -/
lemma urlScanAux_cons_none (f : ℕ) (c : Char) (rest : List Char)
    (h : tryUrl (c :: rest) = none) :
    urlScanAux (f + 1) (c :: rest) = urlScanAux f rest := by
  simp only [urlScanAux]
  split
  · rename_i m' rem' heq
    rw [h] at heq
    exact absurd heq (by simp)
  · rfl

/-- The URL scan is independent of the fuel, given enough of it. -/
lemma urlScanAux_congr : ∀ (f g : ℕ) (l : List Char),
    l.length ≤ f → l.length ≤ g → urlScanAux f l = urlScanAux g l := by
  intro f
  induction f with
  | zero =>
    intro g l hf _
    have : l = [] := List.length_eq_zero.mp (Nat.le_zero.mp hf)
    subst this
    rw [urlScanAux_nil, urlScanAux_nil]
  | succ f ih =>
    intro g l hf hg
    cases l with
    | nil => rw [urlScanAux_nil, urlScanAux_nil]
    | cons c rest =>
      cases g with
      | zero => simp at hg
      | succ g =>
        simp only [List.length_cons] at hf hg
        rcases htry : tryUrl (c :: rest) with _ | ⟨m, rem⟩
        · rw [urlScanAux_cons_none f c rest htry, urlScanAux_cons_none g c rest htry]
          exact ih g rest (by omega) (by omega)
        · have hlen := tryUrl_some_length _ _ _ htry
          simp only [List.length_cons] at hlen
          rw [urlScanAux_cons_some f c rest m rem htry,
            urlScanAux_cons_some g c rest m rem htry]
          rw [ih g rem (by omega) (by omega)]

/-- The URL scan of a space-joined concatenation is the concatenation of
the scans: a `[^\s]+` run stops at the space. -/
lemma urlScanAux_decomp : ∀ (f : ℕ) (a : List Char) (fa : ℕ) (b : List Char) (fb : ℕ),
    a.length + b.length + 1 ≤ f → a.length ≤ fa → b.length ≤ fb →
    urlScanAux f (a ++ ' ' :: b) = urlScanAux fa a ++ urlScanAux fb b := by
  intro f
  induction f with
  | zero =>
    intro a fa b fb hf _ _
    exact absurd hf (by omega)
  | succ f ih =>
    intro a fa b fb hf hfa hfb
    cases a with
    | nil =>
      rw [List.nil_append, urlScanAux_nil, List.nil_append,
        urlScanAux_cons_none f ' ' b (by rw [show (' ' :: b) = ([] ++ ' ' :: b) from rfl,
          tryUrl_append [] b, show tryUrl [] = none from rfl]; rfl)]
      simp only [List.length_nil] at hf
      exact urlScanAux_congr f fb b (by omega) hfb
    | cons c a2 =>
      rw [List.cons_append]
      cases fa with
      | zero => simp at hfa
      | succ fa =>
        simp only [List.length_cons] at hf hfa
        have happ : tryUrl (c :: (a2 ++ ' ' :: b)) =
            (tryUrl (c :: a2)).map (fun p => (p.1, p.2 ++ ' ' :: b)) := by
          rw [← List.cons_append]
          exact tryUrl_append (c :: a2) b
        rcases htry : tryUrl (c :: a2) with _ | ⟨m, rem⟩
        · rw [htry] at happ
          rw [urlScanAux_cons_none f c _ (by rw [happ]; rfl),
            urlScanAux_cons_none fa c a2 htry]
          exact ih a2 fa b fb (by omega) (by omega) hfb
        · rw [htry] at happ
          have hlen := tryUrl_some_length _ _ _ htry
          simp only [List.length_cons] at hlen
          rw [urlScanAux_cons_some f c _ m (rem ++ ' ' :: b) (by rw [happ]; rfl),
            urlScanAux_cons_some fa c a2 m rem htry, List.cons_append]
          congr 1
          exact ih rem fa b fb (by omega) (by omega) hfb

/-- Decomposition of the top-level URL scan. -/
lemma urlScan_append (a b : List Char) :
    urlScan (a ++ ' ' :: b) = urlScan a ++ urlScan b := by
  unfold urlScan
  rw [urlScanAux_decomp (a ++ ' ' :: b).length a a.length b b.length
    (by simp; omega) le_rfl le_rfl]

/-- Joining a longer history appends on the right, after a space. -/
lemma joinSpace_append_data : ∀ (h : List String) (e : String) (ext : List String),
    h ≠ [] → (joinSpace (h ++ e :: ext)).data =
      (joinSpace h).data ++ ' ' :: (joinSpace (e :: ext)).data := by
  intro h
  induction h with
  | nil => intro e ext hne; exact absurd rfl hne
  | cons s h' ih =>
    intro e ext _
    cases h' with
    | nil =>
      show (s ++ " " ++ joinSpace (e :: ext)).data = (joinSpace [s]).data ++ ' ' :: (joinSpace (e :: ext)).data
      rw [String.data_append, String.data_append]
      show (s.data ++ [' ']) ++ (joinSpace (e :: ext)).data = s.data ++ ' ' :: (joinSpace (e :: ext)).data
      simp
    | cons y h'' =>
      show (s ++ " " ++ joinSpace ((y :: h'') ++ e :: ext)).data = _
      rw [String.data_append, String.data_append, ih e ext (by simp),
        show (joinSpace (s :: y :: h'')).data = (s ++ " " ++ joinSpace (y :: h'')).data from rfl,
        String.data_append, String.data_append]
      show (s.data ++ [' ']) ++ ((joinSpace (y :: h'')).data ++ ' ' :: (joinSpace (e :: ext)).data) =
        ((s.data ++ [' ']) ++ (joinSpace (y :: h'')).data) ++ ' ' :: (joinSpace (e :: ext)).data
      simp

/-- C8.  Within a session's lifetime the accumulated intelligence never
loses a member: the handler reports `extract (joinSpace history)`, the
history only ever grows by appended messages, and every payment
identifier, bank-account token and URL extracted from a history is still
extracted from that history extended by any later messages. -/
theorem intel_monotone (h ext : List String) (x : String) :
    (x ∈ (extract (joinSpace h)).1 → x ∈ (extract (joinSpace (h ++ ext))).1) ∧
    (x ∈ (extract (joinSpace h)).2.1 → x ∈ (extract (joinSpace (h ++ ext))).2.1) ∧
    (x ∈ (extract (joinSpace h)).2.2 → x ∈ (extract (joinSpace (h ++ ext))).2.2) := by
  cases ext with
  | nil => simp
  | cons e ext' =>
    cases h with
    | nil =>
      refine ⟨?_, ?_, ?_⟩ <;> intro hx <;>
        · rw [show joinSpace [] = "" from rfl, show extract "" = ([], [], []) from rfl] at hx
          exact absurd hx (List.not_mem_nil x)
    | cons s h' =>
      have hjoin : (joinSpace ((s :: h') ++ e :: ext')).data =
          (joinSpace (s :: h')).data ++ ' ' :: (joinSpace (e :: ext')).data :=
        joinSpace_append_data (s :: h') e ext' (by simp)
      unfold extract
      rw [hjoin, upiScan_append, bankScan_append, urlScan_append]
      refine ⟨?_, ?_, ?_⟩ <;> intro hx <;>
        · rw [List.mem_dedup] at hx ⊢
          rw [List.map_append]
          exact List.mem_append_left _ hx

end Rakshak
